import Mathlib

/-!
Verification of the `coin` package's transaction validation and
prioritization logic (skycoin-derived `privateness` repository).

The repository excerpt contains the package's test suite; the
implementation bodies (`transaction.go`, `outputs.go`) are not part of the
excerpt, so every operation below is modelled from the natural-language
specification (and cross-checked against the behaviour the test suite
demands), as noted in each doc comment.

Machine integers are modelled as `Nat` with explicit `≤ maxUint64`
overflow checks.  Cryptographic hashing is modelled as a collision-free
idealization: `SumSHA256` wraps the serialized token stream itself, which
makes hashing injective — matching the spec's idealized treatment of
hashes as unique identifiers.  The binary codec is modelled over an
abstract token stream (one token per primitive integer field), keeping
the length-prefixed structure of the real byte layout.
-/

instance {ε α : Type} [DecidableEq ε] [DecidableEq α] : DecidableEq (Except ε α) :=
  fun a b =>
    match a, b with
    | .error x, .error y =>
      if h : x = y then isTrue (by rw [h]) else isFalse (fun hh => h (Except.error.inj hh))
    | .ok x, .ok y =>
      if h : x = y then isTrue (by rw [h]) else isFalse (fun hh => h (Except.ok.inj hh))
    | .error _, .ok _ => isFalse (fun hh => Except.noConfusion hh)
    | .ok _, .error _ => isFalse (fun hh => Except.noConfusion hh)

/-- Largest value representable in an unsigned 64-bit integer. -/
def maxUint64 : Nat := 2 ^ 64 - 1

/-- Largest value representable in an unsigned 16-bit integer. -/
def maxUint16 : Nat := 2 ^ 16 - 1

/-- Modelled from the spec: `cipher.SHA256` digests are idealized as the
exact token stream they were computed from (a collision-free hash model). -/
structure SHA256 where
  bytes : List Nat
deriving DecidableEq, Repr

/-- Modelled from the spec: `cipher.SumSHA256` under the collision-free
hash idealization simply wraps its input stream. -/
def SumSHA256 (b : List Nat) : SHA256 := ⟨b⟩

/-- Modelled from the spec: `cipher.AddSHA256 a b` hashes the
concatenation of the two digests. -/
def AddSHA256 (a b : SHA256) : SHA256 := ⟨a.bytes ++ b.bytes⟩

/-- `UxBody`: address, coins and hours of an unspent output (spec §3). -/
structure UxBody where
  Address : Nat
  Coins : Nat
  Hours : Nat
deriving DecidableEq, Repr

/-- `UxOut`: an unspent output record with its provenance (spec §3). -/
structure UxOut where
  Body : UxBody
  SourceTransactionHash : SHA256
  CreatedBlockSequence : Nat
  CreatedBlockTime : Nat
deriving DecidableEq, Repr

/-- Modelled from the spec: `UxOut.Hash()` is a deterministic identifier
over the body, source transaction hash and created block sequence
(spec §4.1). -/
def UxOut.Hash (ux : UxOut) : SHA256 :=
  SumSHA256 ([ux.Body.Address, ux.Body.Coins, ux.Body.Hours]
    ++ ux.SourceTransactionHash.bytes ++ [ux.CreatedBlockSequence])

/-- Errors raised by `CoinHours`.  `coinSecondsOverflow` corresponds to the
message "UxOut.CoinHours: Calculating whole coin seconds overflows uint64
seconds=<seconds> coins=<wholeCoins> uxid=<hash>", reporting the offending
seconds, whole coins and output identity; `addOverflow` corresponds to
"UxOut.CoinHours: Addition of coin hours overflows uint64". -/
inductive CoinHoursError where
  | coinSecondsOverflow (seconds wholeCoins : Nat) (uxid : SHA256)
  | addOverflow
deriving DecidableEq, Repr

/-- Modelled from the spec (§4.1): `UxOut.CoinHours(currentTime)` is the
base hours plus earned hours.  Earned hours are proportional to
wholeCoins × elapsedSeconds (whole coins = Coins divided by 1e6 droplets
per coin, as witnessed by the test's error message `coins=10` for
`Coins=10e6`), scaled down by 3600 coin-seconds per coin-hour.  The
intermediate product is checked against uint64 and fails with
`coinSecondsOverflow` if unrepresentable; the final addition of earned
hours to base hours fails with `addOverflow` if unrepresentable. -/
def UxOut.CoinHours (ux : UxOut) (currentTime : Nat) : Except CoinHoursError Nat :=
  let seconds := currentTime - ux.CreatedBlockTime
  let wholeCoins := ux.Body.Coins / 1000000
  let coinSeconds := wholeCoins * seconds
  if maxUint64 < coinSeconds then
    .error (.coinSecondsOverflow seconds wholeCoins ux.Hash)
  else
    let earned := coinSeconds / 3600
    if maxUint64 < ux.Body.Hours + earned then
      .error .addOverflow
    else
      .ok (ux.Body.Hours + earned)

/-- Sum of the `Coins` fields of a list of unspent outputs (as an
unbounded natural number, for specification purposes). -/
def coinSum (uxs : List UxOut) : Nat := (uxs.map (fun u => u.Body.Coins)).sum

/-- Overflow-checked left-to-right accumulation of `Coins`, mirroring a
loop of uint64 checked additions: fails as soon as a partial sum exceeds
`maxUint64`. -/
def sumCoinsAcc (acc : Nat) : List UxOut → Option Nat
  | [] => some acc
  | ux :: rest =>
    if acc + ux.Body.Coins ≤ maxUint64 then sumCoinsAcc (acc + ux.Body.Coins) rest
    else none

/-- Modelled from the spec (§4.4): `VerifyTransactionCoinsSpending` sums
input coins (overflow → "Transaction input coins overflow") and output
coins (overflow → "Transaction output coins overflow"), then requires
exact equality: output sum exceeding input sum fails "Insufficient
coins", output sum lower than input sum fails "Transactions may not
destroy coins". -/
def VerifyTransactionCoinsSpending (uxIn uxOut : List UxOut) : Except String Unit :=
  match sumCoinsAcc 0 uxIn with
  | none => .error "Transaction input coins overflow"
  | some coinsIn =>
    match sumCoinsAcc 0 uxOut with
    | none => .error "Transaction output coins overflow"
    | some coinsOut =>
      if coinsIn < coinsOut then .error "Insufficient coins"
      else if coinsOut < coinsIn then .error "Transactions may not destroy coins"
      else .ok ()

/-- Errors raised by `VerifyTransactionHoursSpending`.  The constructors
correspond to, in order: a propagated `CoinHours` coin-seconds overflow
(message prefix "UxOut.CoinHours: Calculating whole coin seconds
overflows uint64 ..."), "Transaction input hours overflow", "Transaction
output hours overflow" and "Insufficient coin hours". -/
inductive HoursSpendError where
  | coinHoursErr (e : CoinHoursError)
  | inputHoursOverflow
  | outputHoursOverflow
  | insufficientCoinHours
deriving DecidableEq, Repr

/-- Modelled from the spec (§4.4): the input-hours accumulation loop.
Each input contributes `CoinHours(headTime)`; a per-output `addOverflow`
from `CoinHours` is swallowed and that input contributes 0 hours, while a
`coinSecondsOverflow` is propagated; the accumulation across inputs
itself fails with "Transaction input hours overflow" on uint64
overflow. -/
def sumInputHoursAcc (headTime : Nat) (acc : Nat) :
    List UxOut → Except HoursSpendError Nat
  | [] => .ok acc
  | ux :: rest =>
    match ux.CoinHours headTime with
    | .error (.coinSecondsOverflow s c id) =>
      .error (.coinHoursErr (.coinSecondsOverflow s c id))
    | .error .addOverflow => sumInputHoursAcc headTime acc rest
    | .ok h =>
      if acc + h ≤ maxUint64 then sumInputHoursAcc headTime (acc + h) rest
      else .error .inputHoursOverflow

/-- Overflow-checked accumulation of declared output `Hours`. -/
def sumOutputHoursAcc (acc : Nat) : List UxOut → Option Nat
  | [] => some acc
  | ux :: rest =>
    if acc + ux.Body.Hours ≤ maxUint64 then sumOutputHoursAcc (acc + ux.Body.Hours) rest
    else none

/-- Modelled from the spec (§4.4): `VerifyTransactionHoursSpending`
computes total input hours via `sumInputHoursAcc`, total output hours as
the overflow-checked sum of declared hours, and requires
outputHours ≤ inputHours, failing "Insufficient coin hours" otherwise. -/
def VerifyTransactionHoursSpending (headTime : Nat) (uxIn uxOut : List UxOut) :
    Except HoursSpendError Unit :=
  match sumInputHoursAcc headTime 0 uxIn with
  | .error e => .error e
  | .ok hoursIn =>
    match sumOutputHoursAcc 0 uxOut with
    | none => .error .outputHoursOverflow
    | some hoursOut =>
      if hoursIn < hoursOut then .error .insufficientCoinHours
      else .ok ()

theorem coinSum_nil : coinSum [] = 0 := rfl

theorem coinSum_cons (ux : UxOut) (rest : List UxOut) :
    coinSum (ux :: rest) = ux.Body.Coins + coinSum rest := by
  simp [coinSum]

/-- `sumCoinsAcc` succeeds exactly when the total fits in a uint64, and
then computes the plain sum. -/
theorem sumCoinsAcc_eq (l : List UxOut) : ∀ acc : Nat, acc ≤ maxUint64 →
    sumCoinsAcc acc l = if acc + coinSum l ≤ maxUint64 then some (acc + coinSum l) else none := by
  induction l with
  | nil =>
    intro acc hacc
    rw [sumCoinsAcc, coinSum_nil, if_pos (by omega), Nat.add_zero]
  | cons ux rest ih =>
    intro acc hacc
    rw [sumCoinsAcc, coinSum_cons]
    by_cases h : acc + ux.Body.Coins ≤ maxUint64
    · rw [if_pos h, ih _ h]
      have h2 : acc + ux.Body.Coins + coinSum rest = acc + (ux.Body.Coins + coinSum rest) := by
        omega
      rw [h2]
    · rw [if_neg h, if_neg (by omega)]

/-- Closed-form characterization of `VerifyTransactionCoinsSpending` in
terms of the unbounded coin sums. -/
theorem VerifyTransactionCoinsSpending_eq (uxIn uxOut : List UxOut) :
    VerifyTransactionCoinsSpending uxIn uxOut =
      if maxUint64 < coinSum uxIn then .error "Transaction input coins overflow"
      else if maxUint64 < coinSum uxOut then .error "Transaction output coins overflow"
      else if coinSum uxIn < coinSum uxOut then .error "Insufficient coins"
      else if coinSum uxOut < coinSum uxIn then .error "Transactions may not destroy coins"
      else .ok () := by
  unfold VerifyTransactionCoinsSpending
  rw [sumCoinsAcc_eq uxIn 0 (by omega), sumCoinsAcc_eq uxOut 0 (by omega)]
  simp only [Nat.zero_add]
  by_cases h1 : coinSum uxIn ≤ maxUint64
  · by_cases h2 : coinSum uxOut ≤ maxUint64
    · rw [if_pos h1, if_pos h2, if_neg (Nat.not_lt.mpr h1), if_neg (Nat.not_lt.mpr h2)]
    · rw [if_pos h1, if_neg h2, if_neg (Nat.not_lt.mpr h1), if_pos (Nat.not_le.mp h2)]
  · rw [if_neg h1, if_pos (Nat.not_le.mp h1)]

/-- C1: `VerifyTransactionCoinsSpending(uxIn, uxOut)` succeeds if and only
if the input coin sum equals the output coin sum exactly (no overflow);
when the output sum exceeds the input sum it fails "Insufficient coins",
when the output sum is strictly less it fails "Transactions may not
destroy coins", and when summing the input (resp. output) coins overflows
uint64 it fails "Transaction input coins overflow" (resp. "Transaction
output coins overflow"). -/
theorem verifyTransactionCoinsSpending_exact_conservation (uxIn uxOut : List UxOut) :
    (VerifyTransactionCoinsSpending uxIn uxOut = .ok () ↔
      (coinSum uxIn = coinSum uxOut ∧ coinSum uxIn ≤ maxUint64)) ∧
    (coinSum uxIn ≤ maxUint64 → coinSum uxOut ≤ maxUint64 →
      coinSum uxIn < coinSum uxOut →
      VerifyTransactionCoinsSpending uxIn uxOut = .error "Insufficient coins") ∧
    (coinSum uxIn ≤ maxUint64 → coinSum uxOut ≤ maxUint64 →
      coinSum uxOut < coinSum uxIn →
      VerifyTransactionCoinsSpending uxIn uxOut = .error "Transactions may not destroy coins") ∧
    (maxUint64 < coinSum uxIn →
      VerifyTransactionCoinsSpending uxIn uxOut = .error "Transaction input coins overflow") ∧
    (coinSum uxIn ≤ maxUint64 → maxUint64 < coinSum uxOut →
      VerifyTransactionCoinsSpending uxIn uxOut = .error "Transaction output coins overflow") := by
  rw [VerifyTransactionCoinsSpending_eq]
  refine ⟨?_, ?_, ?_, ?_, ?_⟩
  · constructor
    · intro h
      by_cases h1 : maxUint64 < coinSum uxIn
      · rw [if_pos h1] at h; exact absurd h (by simp)
      · rw [if_neg h1] at h
        by_cases h2 : maxUint64 < coinSum uxOut
        · rw [if_pos h2] at h; exact absurd h (by simp)
        · rw [if_neg h2] at h
          by_cases h3 : coinSum uxIn < coinSum uxOut
          · rw [if_pos h3] at h; exact absurd h (by simp)
          · rw [if_neg h3] at h
            by_cases h4 : coinSum uxOut < coinSum uxIn
            · rw [if_pos h4] at h; exact absurd h (by simp)
            · exact ⟨by omega, by omega⟩
    · rintro ⟨heq, hle⟩
      rw [if_neg (by omega), if_neg (by omega), if_neg (by omega), if_neg (by omega)]
  · intro h1 h2 h3
    rw [if_neg (by omega), if_neg (by omega), if_pos h3]
  · intro h1 h2 h3
    rw [if_neg (by omega), if_neg (by omega), if_neg (by omega), if_pos h3]
  · intro h1
    rw [if_pos h1]
  · intro h1 h2
    rw [if_neg (by omega), if_pos h2]

/-- Input list for the C1 witness: coins 10e6 and 15e6 (spec §8). -/
def c1In : List UxOut :=
  [⟨⟨0, 10000000, 10⟩, ⟨[]⟩, 0, 0⟩, ⟨⟨0, 15000000, 10⟩, ⟨[]⟩, 0, 0⟩]

/-- Output list for the C1 witness: coins 20e6 and 10e6, exceeding the
input sum (test case "Insufficient coins"). -/
def c1Out : List UxOut :=
  [⟨⟨0, 20000000, 1⟩, ⟨[]⟩, 0, 0⟩, ⟨⟨0, 10000000, 1⟩, ⟨[]⟩, 0, 0⟩]

/-- Witness for C1 at the test's "Insufficient coins" case. -/
theorem verifyTransactionCoinsSpending_exact_conservation_witness :
    VerifyTransactionCoinsSpending c1In c1Out = .error "Insufficient coins" :=
  (verifyTransactionCoinsSpending_exact_conservation c1In c1Out).2.1
    (by decide) (by decide) (by decide)

/-- An input whose `CoinHours` fails with `addOverflow` is skipped by the
input-hours accumulation loop, at any position and for any accumulator:
it contributes exactly 0 hours. -/
theorem sumInputHoursAcc_skip_addOverflow (headTime : Nat) (ux : UxOut)
    (h : ux.CoinHours headTime = .error .addOverflow) (pre : List UxOut) :
    ∀ (acc : Nat) (post : List UxOut),
      sumInputHoursAcc headTime acc (pre ++ ux :: post) =
      sumInputHoursAcc headTime acc (pre ++ post) := by
  induction pre with
  | nil =>
    intro acc post
    simp only [List.nil_append, sumInputHoursAcc, h]
  | cons u rest ih =>
    intro acc post
    simp only [List.cons_append, sumInputHoursAcc]
    cases hc : u.CoinHours headTime with
    | error e =>
      cases e with
      | coinSecondsOverflow s c id => rfl
      | addOverflow => exact ih acc post
    | ok hval =>
      dsimp only
      by_cases hle : acc + hval ≤ maxUint64
      · rw [if_pos hle, if_pos hle]
        exact ih (acc + hval) post
      · rw [if_neg hle, if_neg hle]

/-- C2: in `VerifyTransactionHoursSpending(headTime, uxIn, uxOut)`, an
input whose addition of earned hours to base hours overflows uint64
contributes exactly 0 hours (removing it does not change the result)
instead of failing the call; in particular one input with
Coins=10,000,000 and Hours=MaxUint64 at headTime=1,000,000 contributes 0
hours, so outputs with total Hours=0 are accepted while outputs with
total Hours=1 fail with "Insufficient coin hours". -/
theorem verifyTransactionHoursSpending_swallows_addOverflow :
    (∀ (headTime : Nat) (ux : UxOut) (pre post uxOut : List UxOut),
      ux.CoinHours headTime = .error .addOverflow →
      VerifyTransactionHoursSpending headTime (pre ++ ux :: post) uxOut =
      VerifyTransactionHoursSpending headTime (pre ++ post) uxOut) ∧
    (UxOut.CoinHours ⟨⟨0, 10000000, maxUint64⟩, ⟨[]⟩, 0, 0⟩ 1000000 =
      .error .addOverflow) ∧
    (VerifyTransactionHoursSpending 1000000
      [⟨⟨0, 10000000, maxUint64⟩, ⟨[]⟩, 0, 0⟩]
      [⟨⟨0, 10000000, 0⟩, ⟨[]⟩, 0, 0⟩] = .ok ()) ∧
    (VerifyTransactionHoursSpending 1000000
      [⟨⟨0, 10000000, maxUint64⟩, ⟨[]⟩, 0, 0⟩]
      [⟨⟨0, 10000000, 1⟩, ⟨[]⟩, 0, 0⟩] = .error .insufficientCoinHours) := by
  refine ⟨?_, by decide, by decide, by decide⟩
  intro headTime ux pre post uxOut h
  unfold VerifyTransactionHoursSpending
  rw [sumInputHoursAcc_skip_addOverflow headTime ux h pre 0 post]

/-- Witness for C2: the removal law applied at the concrete
overflowing input of the test. -/
theorem verifyTransactionHoursSpending_swallows_addOverflow_witness :
    VerifyTransactionHoursSpending 1000000
      [⟨⟨0, 10000000, maxUint64⟩, ⟨[]⟩, 0, 0⟩]
      [⟨⟨0, 10000000, 0⟩, ⟨[]⟩, 0, 0⟩] =
    VerifyTransactionHoursSpending 1000000 []
      [⟨⟨0, 10000000, 0⟩, ⟨[]⟩, 0, 0⟩] :=
  verifyTransactionHoursSpending_swallows_addOverflow.1 1000000
    ⟨⟨0, 10000000, maxUint64⟩, ⟨[]⟩, 0, 0⟩ [] []
    [⟨⟨0, 10000000, 0⟩, ⟨[]⟩, 0, 0⟩] (by decide)

/-- C6: for every unspent output and `currentTime ≥ CreatedBlockTime`,
if wholeCoins × elapsedSeconds cannot be represented in 64 bits,
`CoinHours(currentTime)` fails with an overflow error reporting the
offending seconds, whole coins and output identity, and
`VerifyTransactionHoursSpending` propagates this error rather than
treating the input as zero hours. -/
theorem coinHours_coinSeconds_overflow_propagates (currentTime : Nat) (ux : UxOut)
    (rest uxOut : List UxOut)
    (h1 : ux.CreatedBlockTime ≤ currentTime)
    (h2 : maxUint64 < (ux.Body.Coins / 1000000) * (currentTime - ux.CreatedBlockTime)) :
    ux.CoinHours currentTime =
      .error (.coinSecondsOverflow (currentTime - ux.CreatedBlockTime)
        (ux.Body.Coins / 1000000) ux.Hash) ∧
    VerifyTransactionHoursSpending currentTime (ux :: rest) uxOut =
      .error (.coinHoursErr (.coinSecondsOverflow (currentTime - ux.CreatedBlockTime)
        (ux.Body.Coins / 1000000) ux.Hash)) := by
  have hch : ux.CoinHours currentTime =
      .error (.coinSecondsOverflow (currentTime - ux.CreatedBlockTime)
        (ux.Body.Coins / 1000000) ux.Hash) := by
    unfold UxOut.CoinHours
    rw [if_pos h2]
  refine ⟨hch, ?_⟩
  unfold VerifyTransactionHoursSpending
  rw [sumInputHoursAcc, hch]

/-- Witness for C6 at the test's "coin hours time calculation overflow"
case: Coins=10e6 (10 whole coins), CreatedBlockTime=0,
currentTime=MaxUint64. -/
theorem coinHours_coinSeconds_overflow_propagates_witness :
    VerifyTransactionHoursSpending maxUint64
      [⟨⟨0, 10000000, 10⟩, ⟨[]⟩, 0, 0⟩] [] =
    .error (.coinHoursErr (.coinSecondsOverflow maxUint64 10
      (UxOut.Hash ⟨⟨0, 10000000, 10⟩, ⟨[]⟩, 0, 0⟩))) :=
  (coinHours_coinSeconds_overflow_propagates maxUint64
    ⟨⟨0, 10000000, 10⟩, ⟨[]⟩, 0, 0⟩ [] [] (by decide) (by decide)).2

/-- `TransactionOutput`: the output side of a transaction (spec §3). -/
structure TransactionOutput where
  Address : Nat
  Coins : Nat
  Hours : Nat
deriving DecidableEq, Repr

/-- `Transaction` (spec §3).  `Ty` models the Go field `Type` (reserved,
currently always 0); the remaining fields keep their Go names. -/
structure Transaction where
  Length : Nat
  Ty : Nat
  InnerHash : SHA256
  Sigs : List Nat
  In : List SHA256
  Out : List TransactionOutput
deriving DecidableEq, Repr

/-- Token-stream encoding of a digest: its length followed by its
tokens (the length-prefixed layout of a byte sequence). -/
def encSHA (h : SHA256) : List Nat := h.bytes.length :: h.bytes

/-- Token-stream encoding of a transaction output: address, coins,
hours. -/
def encOutput (o : TransactionOutput) : List Nat := [o.Address, o.Coins, o.Hours]

/-- Concatenation of the encodings of a list's elements. -/
def concatMap (f : α → List Nat) : List α → List Nat
  | [] => []
  | a :: l => f a ++ concatMap f l

/-- Length-prefixed encoding of a sequence (spec §4.2: the In, Out and
Sigs sequences are length-prefixed). -/
def encList (f : α → List Nat) (l : List α) : List Nat :=
  l.length :: concatMap f l

/-- Modelled from the spec (§4.2): `Transaction.Serialize()` lays out the
Length and Type fields, the InnerHash, then the length-prefixed Sigs, In
and Out sequences over the abstract token stream. -/
def Transaction.Serialize (t : Transaction) : List Nat :=
  t.Length :: (t.Ty :: (encSHA t.InnerHash ++ (encList (fun s => [s]) t.Sigs ++
    (encList encSHA t.In ++ encList encOutput t.Out))))

/-- The stream hashed by `HashInner`: Type, In and Out only (spec §4.2:
"hash over {Type, In, Out} only — stable across signing"). -/
def innerStream (t : Transaction) : List Nat :=
  t.Ty :: (encList encSHA t.In ++ encList encOutput t.Out)

/-- Modelled from the spec (§4.2): `Transaction.HashInner()` hashes Type,
In and Out only. -/
def Transaction.HashInner (t : Transaction) : SHA256 :=
  SumSHA256 (innerStream t)

/-- Modelled from the spec (§4.2): `Transaction.Hash()` hashes the
complete serialized structure including signatures. -/
def Transaction.Hash (t : Transaction) : SHA256 :=
  SumSHA256 t.Serialize

/-- Modelled from the spec (§4.2): `UpdateHeader()` recomputes and stores
InnerHash from `HashInner()`. -/
def Transaction.UpdateHeader (t : Transaction) : Transaction :=
  { t with InnerHash := t.HashInner }

/-- Read one token from the stream; fails on a truncated stream. -/
def readTok : List Nat → Option (Nat × List Nat)
  | [] => none
  | x :: r => some (x, r)

/-- Read `n` items with the item parser `p`. -/
def readCount (p : List Nat → Option (α × List Nat)) :
    Nat → List Nat → Option (List α × List Nat)
  | 0, r => some ([], r)
  | n + 1, r => do
    let (a, r1) ← p r
    let (as, r2) ← readCount p n r1
    some (a :: as, r2)

/-- Read a digest: a length token followed by that many tokens. -/
def readSHA (r : List Nat) : Option (SHA256 × List Nat) := do
  let (n, r1) ← readTok r
  let (bs, r2) ← readCount readTok n r1
  some (⟨bs⟩, r2)

/-- Read a transaction output: address, coins, hours. -/
def readOutput (r : List Nat) : Option (TransactionOutput × List Nat) := do
  let (a, r1) ← readTok r
  let (c, r2) ← readTok r1
  let (h, r3) ← readTok r2
  some (⟨a, c, h⟩, r3)

/-- Read a length-prefixed sequence. -/
def readListOf (p : List Nat → Option (α × List Nat)) (r : List Nat) :
    Option (List α × List Nat) := do
  let (n, r1) ← readTok r
  readCount p n r1

/-- Modelled from the spec (§4.2): `TransactionDeserialize` parses the
fixed layout written by `Serialize` and fails (returns `none`) on
truncated or malformed input, including trailing data. -/
def TransactionDeserialize (b : List Nat) : Option Transaction := do
  let (len, r1) ← readTok b
  let (ty, r2) ← readTok r1
  let (ih, r3) ← readSHA r2
  let (sigs, r4) ← readListOf readTok r3
  let (ins, r5) ← readListOf readSHA r4
  let (outs, r6) ← readListOf readOutput r5
  if r6 = [] then some ⟨len, ty, ih, sigs, ins, outs⟩ else none

theorem readTok_cons (x : Nat) (r : List Nat) : readTok (x :: r) = some (x, r) := rfl

/-- Reading back exactly the tokens of a list. -/
theorem readCount_readTok (bs : List Nat) : ∀ r : List Nat,
    readCount readTok bs.length (bs ++ r) = some (bs, r) := by
  induction bs with
  | nil => intro r; rfl
  | cons b bs ih =>
    intro r
    simp only [List.length_cons, List.cons_append, readCount, readTok_cons, Option.bind_eq_bind,
      Option.some_bind, ih]

theorem readSHA_enc (h : SHA256) (r : List Nat) :
    readSHA (encSHA h ++ r) = some (h, r) := by
  simp only [readSHA, encSHA, List.cons_append, readTok_cons, Option.bind_eq_bind,
    Option.some_bind, readCount_readTok]

theorem readOutput_enc (o : TransactionOutput) (r : List Nat) :
    readOutput (encOutput o ++ r) = some (o, r) := by
  simp only [readOutput, encOutput, List.cons_append, List.nil_append, readTok_cons,
    Option.bind_eq_bind, Option.some_bind]

/-- Generic roundtrip for `readCount` over concatenated element
encodings. -/
theorem readCount_enc {α : Type} (p : List Nat → Option (α × List Nat)) (f : α → List Nat)
    (hp : ∀ (a : α) (r : List Nat), p (f a ++ r) = some (a, r)) (l : List α) :
    ∀ r : List Nat, readCount p l.length (concatMap f l ++ r) = some (l, r) := by
  induction l with
  | nil => intro r; rfl
  | cons a l ih =>
    intro r
    simp only [List.length_cons, concatMap, readCount, List.append_assoc, hp,
      Option.bind_eq_bind, Option.some_bind, ih]

/-- Generic roundtrip for length-prefixed sequences. -/
theorem readListOf_enc {α : Type} (p : List Nat → Option (α × List Nat)) (f : α → List Nat)
    (hp : ∀ (a : α) (r : List Nat), p (f a ++ r) = some (a, r)) (l : List α) (r : List Nat) :
    readListOf p (encList f l ++ r) = some (l, r) := by
  simp only [readListOf, encList, List.cons_append, readTok_cons, Option.bind_eq_bind,
    Option.some_bind, readCount_enc p f hp]

/-- The codec roundtrip: deserializing a serialized transaction recovers
it exactly. -/
theorem transactionDeserialize_serialize (t : Transaction) :
    TransactionDeserialize t.Serialize = some t := by
  have hout : encList encOutput t.Out = encList encOutput t.Out ++ [] :=
    (List.append_nil _).symm
  rw [TransactionDeserialize, Transaction.Serialize, hout]
  simp only [readTok_cons, Option.bind_eq_bind, Option.some_bind,
    readSHA_enc, readListOf_enc readTok (fun s => [s]) (fun a r => rfl),
    readListOf_enc readSHA encSHA readSHA_enc,
    readListOf_enc readOutput encOutput readOutput_enc]
  rfl

/-- `Serialize` is injective (a consequence of the roundtrip). -/
theorem serialize_injective {a b : Transaction}
    (h : a.Serialize = b.Serialize) : a = b := by
  have ha := transactionDeserialize_serialize a
  rw [h, transactionDeserialize_serialize b] at ha
  exact (Option.some.inj ha).symm

/-- C7: `TransactionDeserialize(t.Serialize())` succeeds and returns `t`,
and applying `Serialize` then `TransactionDeserialize` once more to the
result returns the same transaction again (the codec roundtrip is
idempotent). -/
theorem transactionSerialization_roundtrip (t : Transaction) :
    TransactionDeserialize t.Serialize = some t ∧
    (∀ t2 : Transaction, TransactionDeserialize t.Serialize = some t2 →
      TransactionDeserialize t2.Serialize = some t2) :=
  ⟨transactionDeserialize_serialize t,
   fun t2 _ => transactionDeserialize_serialize t2⟩

/-- Witness for C7 at a concrete signed transaction (one input, one
signature, two outputs). -/
theorem transactionSerialization_roundtrip_witness :
    TransactionDeserialize
      (Transaction.Serialize ⟨0, 0, ⟨[5, 6]⟩, [7], [⟨[8, 9]⟩], [⟨1, 1000000, 50⟩]⟩) =
      some ⟨0, 0, ⟨[5, 6]⟩, [7], [⟨[8, 9]⟩], [⟨1, 1000000, 50⟩]⟩ ∧
    TransactionDeserialize
      (Transaction.Serialize ⟨0, 0, ⟨[5, 6]⟩, [7], [⟨[8, 9]⟩], [⟨1, 1000000, 50⟩]⟩) =
      some ⟨0, 0, ⟨[5, 6]⟩, [7], [⟨[8, 9]⟩], [⟨1, 1000000, 50⟩]⟩ :=
  ⟨(transactionSerialization_roundtrip _).1,
   (transactionSerialization_roundtrip
      ⟨0, 0, ⟨[5, 6]⟩, [7], [⟨[8, 9]⟩], [⟨1, 1000000, 50⟩]⟩).2 _
      (transactionSerialization_roundtrip _).1⟩

/-- Parser for the inner-hash stream: Type, then the In and Out
sequences. -/
def innerParse (s : List Nat) : Option (Nat × List SHA256 × List TransactionOutput) := do
  let (ty, r1) ← readTok s
  let (ins, r2) ← readListOf readSHA r1
  let (outs, r3) ← readListOf readOutput r2
  if r3 = [] then some (ty, ins, outs) else none

theorem innerParse_innerStream (t : Transaction) :
    innerParse (innerStream t) = some (t.Ty, t.In, t.Out) := by
  have hout : encList encOutput t.Out = encList encOutput t.Out ++ [] :=
    (List.append_nil _).symm
  rw [innerParse, innerStream, hout]
  simp only [readTok_cons, Option.bind_eq_bind, Option.some_bind,
    readListOf_enc readSHA encSHA readSHA_enc,
    readListOf_enc readOutput encOutput readOutput_enc]
  rfl

/-- The inner stream determines Type, In and Out. -/
theorem innerStream_inj {a b : Transaction}
    (h : innerStream a = innerStream b) : a.Ty = b.Ty ∧ a.In = b.In ∧ a.Out = b.Out := by
  have ha := innerParse_innerStream a
  rw [h, innerParse_innerStream b] at ha
  have h2 := (Option.some.inj ha).symm
  exact ⟨congrArg Prod.fst h2, congrArg (fun p => p.2.1) h2,
    congrArg (fun p => p.2.2) h2⟩

/-- C8: for every transaction holding at least one signature, `Hash()`
differs from `HashInner()`; `HashInner()` is unchanged by any
modification of Sigs alone; and `HashInner()` changes whenever In or Out
changes (Type held fixed). -/
theorem hash_neq_hashInner_and_hashInner_covers_in_out :
    (∀ t : Transaction, t.Sigs ≠ [] → t.Hash ≠ t.HashInner) ∧
    (∀ (t : Transaction) (sigs : List Nat),
      Transaction.HashInner { t with Sigs := sigs } = t.HashInner) ∧
    (∀ a b : Transaction, a.Ty = b.Ty → (a.In ≠ b.In ∨ a.Out ≠ b.Out) →
      a.HashInner ≠ b.HashInner) := by
  refine ⟨?_, ?_, ?_⟩
  · intro t _ h
    have hb : t.Serialize = innerStream t := congrArg SHA256.bytes h
    have hlen := congrArg List.length hb
    rw [Transaction.Serialize, innerStream] at hlen
    simp only [List.length_cons, List.length_append, encSHA, encList] at hlen
    omega
  · intro t sigs
    rfl
  · intro a b hty hne h
    have hb : innerStream a = innerStream b := congrArg SHA256.bytes h
    have := innerStream_inj hb
    rcases hne with hin | hout
    · exact hin this.2.1
    · exact hout this.2.2

/-- Witness for C8: a transaction with one signature has distinct `Hash`
and `HashInner`, and changing its single input changes `HashInner`. -/
theorem hash_neq_hashInner_and_hashInner_covers_in_out_witness :
    Transaction.Hash ⟨0, 0, ⟨[5]⟩, [7], [⟨[8]⟩], [⟨1, 2, 3⟩]⟩ ≠
      Transaction.HashInner ⟨0, 0, ⟨[5]⟩, [7], [⟨[8]⟩], [⟨1, 2, 3⟩]⟩ ∧
    Transaction.HashInner ⟨0, 0, ⟨[5]⟩, [7], [⟨[8]⟩], [⟨1, 2, 3⟩]⟩ ≠
      Transaction.HashInner ⟨0, 0, ⟨[5]⟩, [7], [⟨[9]⟩], [⟨1, 2, 3⟩]⟩ :=
  ⟨hash_neq_hashInner_and_hashInner_covers_in_out.1
      ⟨0, 0, ⟨[5]⟩, [7], [⟨[8]⟩], [⟨1, 2, 3⟩]⟩ (by decide),
   hash_neq_hashInner_and_hashInner_covers_in_out.2.2
      ⟨0, 0, ⟨[5]⟩, [7], [⟨[8]⟩], [⟨1, 2, 3⟩]⟩
      ⟨0, 0, ⟨[5]⟩, [7], [⟨[9]⟩], [⟨1, 2, 3⟩]⟩ rfl
      (Or.inl (by decide))⟩

/-- `Transaction.Size()`: the serialized length (spec §4.2), in stream
tokens. -/
def Transaction.Size (t : Transaction) : Nat := t.Serialize.length

/-- Total serialized size of an ordered sequence of transactions
(`Transactions.Size()`, spec §6, as an unbounded natural number). -/
def txnsSize (txns : List Transaction) : Nat := (txns.map Transaction.Size).sum

theorem txnsSize_nil : txnsSize [] = 0 := rfl

theorem txnsSize_cons (t : Transaction) (rest : List Transaction) :
    txnsSize (t :: rest) = t.Size + txnsSize rest := by
  simp [txnsSize]

/-- Every transaction's serialized size is positive (the stream always
holds at least the Length field). -/
theorem size_pos (t : Transaction) : 0 < t.Size := by
  rw [Transaction.Size, Transaction.Serialize]
  simp

/-- The greedy accumulation loop behind `TruncateBytesTo`: keep taking
transactions while the cumulative size stays within the budget. -/
def truncAcc (maxBytes : Nat) (acc : Nat) : List Transaction → List Transaction
  | [] => []
  | t :: rest =>
    if acc + t.Size ≤ maxBytes then t :: truncAcc maxBytes (acc + t.Size) rest
    else []

/-- Modelled from the spec (§6): `Transactions.TruncateBytesTo(maxBytes)`
returns the longest prefix of the sequence, in its current order, whose
cumulative serialized size does not exceed `maxBytes`; a transaction is
included only if the whole of it fits. -/
def TruncateBytesTo (txns : List Transaction) (maxBytes : Nat) : List Transaction :=
  truncAcc maxBytes 0 txns

theorem truncAcc_take (maxBytes : Nat) : ∀ (txns : List Transaction) (acc : Nat),
    truncAcc maxBytes acc txns = txns.take (truncAcc maxBytes acc txns).length := by
  intro txns
  induction txns with
  | nil => intro acc; rfl
  | cons t rest ih =>
    intro acc
    rw [truncAcc]
    by_cases h : acc + t.Size ≤ maxBytes
    · rw [if_pos h]
      simp only [List.length_cons, List.take_succ_cons]
      rw [← ih (acc + t.Size)]
    · rw [if_neg h]
      rfl

theorem truncAcc_size_le (maxBytes : Nat) : ∀ (txns : List Transaction) (acc : Nat),
    acc ≤ maxBytes → acc + txnsSize (truncAcc maxBytes acc txns) ≤ maxBytes := by
  intro txns
  induction txns with
  | nil => intro acc h; simpa [truncAcc, txnsSize_nil]
  | cons t rest ih =>
    intro acc h
    rw [truncAcc]
    by_cases hc : acc + t.Size ≤ maxBytes
    · rw [if_pos hc, txnsSize_cons]
      have := ih (acc + t.Size) hc
      omega
    · rw [if_neg hc, txnsSize_nil]
      omega

theorem truncAcc_maximal (maxBytes : Nat) : ∀ (txns : List Transaction) (n acc : Nat),
    n ≤ txns.length → acc + txnsSize (txns.take n) ≤ maxBytes →
    n ≤ (truncAcc maxBytes acc txns).length := by
  intro txns
  induction txns with
  | nil =>
    intro n acc hn _
    simp only [List.length_nil, Nat.le_zero] at hn
    subst hn
    exact Nat.zero_le _
  | cons t rest ih =>
    intro n acc hn hsz
    match n with
    | 0 => exact Nat.zero_le _
    | n + 1 =>
      rw [List.take_succ_cons, txnsSize_cons] at hsz
      have hfit : acc + t.Size ≤ maxBytes := by omega
      rw [truncAcc, if_pos hfit, List.length_cons]
      have hn' : n ≤ rest.length := by simpa using hn
      have := ih n (acc + t.Size) hn' (by omega)
      omega

theorem truncAcc_all (maxBytes : Nat) : ∀ (txns : List Transaction) (acc : Nat),
    acc + txnsSize txns ≤ maxBytes → truncAcc maxBytes acc txns = txns := by
  intro txns
  induction txns with
  | nil => intro acc _; rfl
  | cons t rest ih =>
    intro acc h
    rw [txnsSize_cons] at h
    rw [truncAcc, if_pos (by omega), ih (acc + t.Size) (by omega)]

/-- C3: `TruncateBytesTo(maxBytes)` returns a prefix of the sequence whose
cumulative serialized size does not exceed `maxBytes`, and it is the
longest such prefix (no transaction is partially included); truncating to
the total size S returns all transactions, truncating to S+1 also returns
all transactions with total size S, and truncating to 0 returns the empty
sequence of size 0. -/
theorem truncateBytesTo_greedy_longest (txns : List Transaction) (maxBytes : Nat) :
    (TruncateBytesTo txns maxBytes =
      txns.take (TruncateBytesTo txns maxBytes).length) ∧
    (txnsSize (TruncateBytesTo txns maxBytes) ≤ maxBytes) ∧
    (∀ n : Nat, n ≤ txns.length → txnsSize (txns.take n) ≤ maxBytes →
      n ≤ (TruncateBytesTo txns maxBytes).length) ∧
    (TruncateBytesTo txns (txnsSize txns) = txns) ∧
    (TruncateBytesTo txns (txnsSize txns + 1) = txns ∧
      txnsSize (TruncateBytesTo txns (txnsSize txns + 1)) = txnsSize txns) ∧
    (TruncateBytesTo txns 0 = [] ∧ txnsSize (TruncateBytesTo txns 0) = 0) := by
  have hzero : TruncateBytesTo txns 0 = [] := by
    cases txns with
    | nil => rfl
    | cons t rest =>
      rw [TruncateBytesTo, truncAcc, if_neg]
      have := size_pos t
      omega
  refine ⟨truncAcc_take maxBytes txns 0, ?_, ?_, ?_, ⟨?_, ?_⟩, hzero, ?_⟩
  · show txnsSize (truncAcc maxBytes 0 txns) ≤ maxBytes
    have := truncAcc_size_le maxBytes txns 0 (Nat.zero_le _)
    omega
  · intro n hn hsz
    exact truncAcc_maximal maxBytes txns n 0 hn (by omega)
  · exact truncAcc_all _ txns 0 (by omega)
  · exact truncAcc_all _ txns 0 (by omega)
  · show txnsSize (truncAcc (txnsSize txns + 1) 0 txns) = txnsSize txns
    rw [truncAcc_all _ txns 0 (by omega)]
  · rw [hzero, txnsSize_nil]

/-- Witness for C3: with one transaction of size 6 and budget 6, the
whole sequence is kept. -/
theorem truncateBytesTo_greedy_longest_witness :
    1 ≤ (TruncateBytesTo [⟨0, 0, ⟨[]⟩, [], [], []⟩] 6).length :=
  (truncateBytesTo_greedy_longest [⟨0, 0, ⟨[]⟩, [], [], []⟩] 6).2.2.1 1
    (by decide) (by decide)

/-- Panic classes of `SignInputs` (caller-contract violations,
spec §4.2/§7). -/
inductive SignPanic where
  | alreadySigned
  | keyCountMismatch
deriving DecidableEq, Repr

/-- Modelled from the spec: signature creation over a hash is idealized
as an injective, nonzero pairing of the secret key and the signed
hash. -/
def signHash (k : Nat) (h : SHA256) : Nat :=
  Nat.pair k (h.bytes.foldr Nat.pair 0) + 1

/-- Modelled from the spec (§4.2): `SignInputs(keys)` panics if Sigs is
non-empty (already signed) or if the key count does not match the input
count; otherwise it produces one signature per input over
`AddSHA256(HashInner(), In[i])`.  The returned pair carries the panic
verdict and the post-state of the transaction (unchanged on panic, since
the checks precede any mutation). -/
def Transaction.SignInputs (t : Transaction) (keys : List Nat) :
    Except SignPanic Unit × Transaction :=
  if t.Sigs ≠ [] then (.error .alreadySigned, t)
  else if keys.length ≠ t.In.length then (.error .keyCountMismatch, t)
  else
    let sigs := (keys.zip t.In).map (fun p => signHash p.1 (AddSHA256 t.HashInner p.2))
    (.ok (), { t with Sigs := sigs })

/-- C9: `SignInputs` panics on every transaction whose Sigs is already
non-empty, and panics when the number of supplied keys does not equal
the number of inputs; in the latter case (including fewer keys than
inputs) the transaction's Sigs remains empty after the panic — no
partial signing. -/
theorem signInputs_panics (t : Transaction) (keys : List Nat) :
    (t.Sigs ≠ [] → t.SignInputs keys = (.error .alreadySigned, t)) ∧
    (t.Sigs = [] → keys.length ≠ t.In.length →
      t.SignInputs keys = (.error .keyCountMismatch, t) ∧
      (t.SignInputs keys).2.Sigs = []) := by
  constructor
  · intro h
    rw [Transaction.SignInputs, if_pos h]
  · intro h hk
    have heq : t.SignInputs keys = (.error .keyCountMismatch, t) := by
      rw [Transaction.SignInputs, if_neg (fun hn => hn h), if_pos hk]
    exact ⟨heq, by rw [heq]; exact h⟩

/-- Witness for C9: signing a two-input unsigned transaction with a
single key panics with a key-count mismatch and leaves Sigs empty. -/
theorem signInputs_panics_witness :
    Transaction.SignInputs ⟨0, 0, ⟨[]⟩, [], [⟨[1]⟩, ⟨[2]⟩], [⟨1, 40, 80⟩]⟩ [5] =
      (.error .keyCountMismatch, ⟨0, 0, ⟨[]⟩, [], [⟨[1]⟩, ⟨[2]⟩], [⟨1, 40, 80⟩]⟩) ∧
    (Transaction.SignInputs ⟨0, 0, ⟨[]⟩, [], [⟨[1]⟩, ⟨[2]⟩], [⟨1, 40, 80⟩]⟩ [5]).2.Sigs = [] :=
  (signInputs_panics ⟨0, 0, ⟨[]⟩, [], [⟨[1]⟩, ⟨[2]⟩], [⟨1, 40, 80⟩]⟩ [5]).2
    rfl (by decide)

/-- Sum of the declared `Coins` of a transaction's outputs (unbounded;
the checked accumulation loop fails exactly when this exceeds
`maxUint64`, as proved for the analogous loop in `sumCoinsAcc_eq`). -/
def outCoinsSum (outs : List TransactionOutput) : Nat :=
  (outs.map (fun o => o.Coins)).sum

theorem outCoinsSum_cons (o : TransactionOutput) (rest : List TransactionOutput) :
    outCoinsSum (o :: rest) = o.Coins + outCoinsSum rest := by
  simp [outCoinsSum]

/-- Modelled from the spec (§4.3): `Transaction.Verify()` — the
self-contained structural checks, in the spec's order.  The duplicate
output check is on the output address alone, per the spec.  Signature
well-formedness ("Failed to recover pubkey from signature") is
abstracted as the signature being nonzero (the zero signature is the
malformed one, as in the test's `cipher.Sig{}`). -/
def Transaction.Verify (t : Transaction) : Except String Unit :=
  if t.InnerHash ≠ t.HashInner then .error "InnerHash does not match computed hash"
  else if t.In.length = 0 then .error "No inputs"
  else if t.Out.length = 0 then .error "No outputs"
  else if t.Sigs.length ≠ t.In.length ∨ t.Sigs.length = 0 ∨ maxUint16 < t.Sigs.length then
    .error "Invalid number of signatures"
  else if maxUint16 < t.Sigs.length + t.In.length then
    .error "Too many signatures and inputs"
  else if ¬ t.In.Nodup then .error "Duplicate spend"
  else if ¬ (t.Out.map TransactionOutput.Address).Nodup then
    .error "Duplicate output in transaction"
  else if ∃ o ∈ t.Out, o.Coins = 0 then .error "Zero coin output"
  else if maxUint64 < outCoinsSum t.Out then .error "Output coins overflow"
  else if ∃ s ∈ t.Sigs, s = 0 then .error "Failed to recover pubkey from signature"
  else .ok ()

/-- `Verify` succeeds exactly when all structural conditions hold. -/
theorem verify_ok_iff (t : Transaction) : t.Verify = .ok () ↔
    (t.InnerHash = t.HashInner ∧ t.In.length ≠ 0 ∧ t.Out.length ≠ 0 ∧
     t.Sigs.length = t.In.length ∧ t.Sigs.length ≠ 0 ∧ t.Sigs.length ≤ maxUint16 ∧
     t.Sigs.length + t.In.length ≤ maxUint16 ∧ t.In.Nodup ∧
     (t.Out.map TransactionOutput.Address).Nodup ∧ (∀ o ∈ t.Out, o.Coins ≠ 0) ∧
     outCoinsSum t.Out ≤ maxUint64 ∧ (∀ s ∈ t.Sigs, s ≠ 0)) := by
  constructor
  · intro h
    rw [Transaction.Verify] at h
    by_cases h1 : t.InnerHash ≠ t.HashInner
    · rw [if_pos h1] at h; exact Except.noConfusion h
    rw [if_neg h1] at h
    by_cases h2 : t.In.length = 0
    · rw [if_pos h2] at h; exact Except.noConfusion h
    rw [if_neg h2] at h
    by_cases h3 : t.Out.length = 0
    · rw [if_pos h3] at h; exact Except.noConfusion h
    rw [if_neg h3] at h
    by_cases h4 : t.Sigs.length ≠ t.In.length ∨ t.Sigs.length = 0 ∨ maxUint16 < t.Sigs.length
    · rw [if_pos h4] at h; exact Except.noConfusion h
    rw [if_neg h4] at h
    by_cases h5 : maxUint16 < t.Sigs.length + t.In.length
    · rw [if_pos h5] at h; exact Except.noConfusion h
    rw [if_neg h5] at h
    by_cases h6 : ¬ t.In.Nodup
    · rw [if_pos h6] at h; exact Except.noConfusion h
    rw [if_neg h6] at h
    by_cases h7 : ¬ (t.Out.map TransactionOutput.Address).Nodup
    · rw [if_pos h7] at h; exact Except.noConfusion h
    rw [if_neg h7] at h
    by_cases h8 : ∃ o ∈ t.Out, o.Coins = 0
    · rw [if_pos h8] at h; exact Except.noConfusion h
    rw [if_neg h8] at h
    by_cases h9 : maxUint64 < outCoinsSum t.Out
    · rw [if_pos h9] at h; exact Except.noConfusion h
    rw [if_neg h9] at h
    by_cases h10 : ∃ s ∈ t.Sigs, s = 0
    · rw [if_pos h10] at h; exact Except.noConfusion h
    push_neg at h1 h4 h8 h10
    exact ⟨h1, h2, h3, h4.1, h4.2.1, by omega, by omega, not_not.mp h6,
      not_not.mp h7, h8, by omega, h10⟩
  · rintro ⟨c1, c2, c3, c4, c5, c6, c7, c8, c9, c10, c11, c12⟩
    rw [Transaction.Verify, if_neg (not_not.mpr c1), if_neg c2, if_neg c3,
      if_neg (by push_neg; exact ⟨c4, c5, c6⟩),
      if_neg (Nat.not_lt.mpr c7), if_neg (not_not.mpr c8), if_neg (not_not.mpr c9),
      if_neg (by push_neg; exact c10), if_neg (Nat.not_lt.mpr c11),
      if_neg (by push_neg; exact c12)]

/-- C5: for every transaction in which two outputs share the same
address, `Verify()` does not succeed, and — provided the checks preceding
the duplicate-output check pass — it fails with exactly
"Duplicate output in transaction" (the duplicate check is on the output
address alone). -/
theorem verify_fails_on_duplicate_output_address (t : Transaction)
    (hdup : ¬ (t.Out.map TransactionOutput.Address).Nodup) :
    t.Verify ≠ .ok () ∧
    (t.InnerHash = t.HashInner → t.In.length ≠ 0 → t.Out.length ≠ 0 →
     t.Sigs.length = t.In.length → t.Sigs.length ≠ 0 → t.Sigs.length ≤ maxUint16 →
     t.Sigs.length + t.In.length ≤ maxUint16 → t.In.Nodup →
     t.Verify = .error "Duplicate output in transaction") := by
  constructor
  · intro hok
    exact hdup ((verify_ok_iff t).mp hok).2.2.2.2.2.2.2.2.1
  · intro e1 e2 e3 e4 e5 e6 e7 e8
    rw [Transaction.Verify, if_neg (not_not.mpr e1), if_neg e2, if_neg e3,
      if_neg (by push_neg; exact ⟨e4, e5, e6⟩), if_neg (Nat.not_lt.mpr e7),
      if_neg (not_not.mpr e8), if_pos hdup]

/-- Witness for C5: a header-updated transaction with two outputs to the
same address fails with "Duplicate output in transaction". -/
theorem verify_fails_on_duplicate_output_address_witness :
    Transaction.Verify
      (Transaction.UpdateHeader
        ⟨0, 0, ⟨[]⟩, [1], [⟨[9]⟩], [⟨1, 1000000, 0⟩, ⟨1, 2000000, 0⟩]⟩) =
      .error "Duplicate output in transaction" :=
  (verify_fails_on_duplicate_output_address
      (Transaction.UpdateHeader
        ⟨0, 0, ⟨[]⟩, [1], [⟨[9]⟩], [⟨1, 1000000, 0⟩, ⟨1, 2000000, 0⟩]⟩)
      (by decide)).2 rfl (by decide) (by decide) (by decide) (by decide)
      (by decide) (by decide) (by decide)

/-- C10: `Verify()` does not require output coins to be multiples of
1,000,000: starting from a transaction that passes `Verify()`, adding a
remainder `d` to the first output's coins so that it is no longer a
multiple of 1e6 (keeping the coin sum within uint64) and updating the
header yields a transaction that still passes `Verify()` — the
decimal-places restriction is not enforced at this layer.  (Signatures
are unchanged; the structural signature check does not bind signatures
to the header.) -/
theorem verify_allows_non_multiple_coins (t : Transaction) (o : TransactionOutput)
    (rest : List TransactionOutput) (d : Nat)
    (hout : t.Out = o :: rest)
    (hok : t.Verify = .ok ())
    (hofl : outCoinsSum t.Out + d ≤ maxUint64)
    (hmod : (o.Coins + d) % 1000000 ≠ 0) :
    Transaction.Verify
      (Transaction.UpdateHeader
        { t with Out := { o with Coins := o.Coins + d } :: rest }) = .ok () := by
  obtain ⟨c1, c2, c3, c4, c5, c6, c7, c8, c9, c10, c11, c12⟩ := (verify_ok_iff t).mp hok
  rw [hout] at c9 c10 c11 hofl
  rw [outCoinsSum_cons] at c11 hofl
  apply (verify_ok_iff _).mpr
  rw [Transaction.UpdateHeader]
  refine ⟨rfl, c2, by simp, c4, c5, c6, c7, c8, ?_, ?_, ?_, c12⟩
  · simpa using c9
  · intro x hx
    rcases List.mem_cons.mp hx with hx1 | hx2
    · subst hx1
      have := c10 o (List.mem_cons_self o rest)
      show o.Coins + d ≠ 0
      omega
    · exact c10 x (List.mem_cons_of_mem o hx2)
  · show outCoinsSum ({ o with Coins := o.Coins + d } :: rest) ≤ maxUint64
    rw [outCoinsSum_cons]
    show o.Coins + d + outCoinsSum rest ≤ maxUint64
    omega

/-- Witness for C10: bumping the single 1e6-coin output of a verified
transaction by 10 leaves `Verify()` succeeding. -/
theorem verify_allows_non_multiple_coins_witness :
    Transaction.Verify
      (Transaction.UpdateHeader
        { Transaction.UpdateHeader ⟨0, 0, ⟨[]⟩, [1], [⟨[9]⟩], [⟨1, 1000000, 0⟩]⟩ with
          Out := [⟨1, 1000000 + 10, 0⟩] }) = .ok () :=
  verify_allows_non_multiple_coins
    (Transaction.UpdateHeader ⟨0, 0, ⟨[]⟩, [1], [⟨[9]⟩], [⟨1, 1000000, 0⟩]⟩)
    ⟨1, 1000000, 0⟩ [] 10 rfl (by decide) (by decide) (by decide)

/-- Byte-lexicographic comparison of token streams (the tie-breaking
order on transaction hashes, as in `bytes.Compare ≤ 0`). -/
def lexLe : List Nat → List Nat → Bool
  | [], _ => true
  | _ :: _, [] => false
  | a :: as, b :: bs =>
    if a < b then true
    else if b < a then false
    else lexLe as bs

theorem lexLe_total (x : List Nat) : ∀ y : List Nat,
    lexLe x y = true ∨ lexLe y x = true := by
  induction x with
  | nil => intro y; exact Or.inl rfl
  | cons a as ih =>
    intro y
    cases y with
    | nil => exact Or.inr rfl
    | cons b bs =>
      rw [lexLe, lexLe]
      by_cases h1 : a < b
      · left; rw [if_pos h1]
      · by_cases h2 : b < a
        · right; rw [if_pos h2]
        · rw [if_neg h1, if_neg h2, if_neg h2, if_neg h1]
          exact ih bs

theorem lexLe_trans (x : List Nat) : ∀ y z : List Nat,
    lexLe x y = true → lexLe y z = true → lexLe x z = true := by
  induction x with
  | nil => intro y z _ _; rfl
  | cons a as ih =>
    intro y z hxy hyz
    cases y with
    | nil => exact absurd hxy (by rw [lexLe]; simp)
    | cons b bs =>
      cases z with
      | nil => exact absurd hyz (by rw [lexLe]; simp)
      | cons c cs =>
        rw [lexLe] at hxy hyz ⊢
        by_cases h1 : a < b
        · by_cases h2 : b < c
          · rw [if_pos (show a < c by omega)]
          · rw [if_neg h2] at hyz
            split_ifs at hyz with h3
            have hcb : c = b := by omega
            subst hcb
            rw [if_pos h1]
        · by_cases h2 : b < a
          · rw [if_neg h1, if_pos h2] at hxy
            exact absurd hxy (by simp)
          · have hab : a = b := by omega
            subst hab
            rw [if_neg h1, if_neg h2] at hxy
            by_cases h3 : a < c
            · rw [if_pos h3]
            · by_cases h4 : c < a
              · rw [if_pos h4] at hyz
                rw [if_neg h3] at hyz
                exact absurd hyz (by simp)
              · rw [if_neg h3, if_neg h4] at hyz ⊢
                exact ih bs cs hxy hyz

theorem lexLe_antisymm (x : List Nat) : ∀ y : List Nat,
    lexLe x y = true → lexLe y x = true → x = y := by
  induction x with
  | nil =>
    intro y hxy hyx
    cases y with
    | nil => rfl
    | cons b bs => exact absurd hyx (by rw [lexLe]; simp)
  | cons a as ih =>
    intro y hxy hyx
    cases y with
    | nil => exact absurd hxy (by rw [lexLe]; simp)
    | cons b bs =>
      rw [lexLe] at hxy hyx
      by_cases h1 : a < b
      · rw [if_neg (by omega), if_pos h1] at hyx
        exact absurd hyx (by simp)
      · by_cases h2 : b < a
        · rw [if_neg h1, if_pos h2] at hxy
          exact absurd hxy (by simp)
        · have hab : a = b := by omega
          subst hab
          rw [if_neg h1, if_neg h2] at hxy hyx
          rw [ih bs hxy hyx]

/-- Insert into a sorted list, keeping earlier elements first on ties
(standard ordered insert over a boolean total preorder). -/
def orderedInsert (le : α → α → Bool) (a : α) : List α → List α
  | [] => [a]
  | b :: l => if le a b then a :: b :: l else b :: orderedInsert le a l

/-- Insertion sort over a boolean total preorder. -/
def insertionSort (le : α → α → Bool) : List α → List α
  | [] => []
  | a :: l => orderedInsert le a (insertionSort le l)

theorem perm_orderedInsert (le : α → α → Bool) (a : α) :
    ∀ l : List α, (orderedInsert le a l).Perm (a :: l) := by
  intro l
  induction l with
  | nil => exact List.Perm.refl _
  | cons b l ih =>
    rw [orderedInsert]
    by_cases h : le a b
    · rw [if_pos h]
    · rw [if_neg h]
      exact (ih.cons b).trans (List.Perm.swap a b l)

theorem perm_insertionSort (le : α → α → Bool) :
    ∀ l : List α, (insertionSort le l).Perm l := by
  intro l
  induction l with
  | nil => exact List.Perm.refl _
  | cons a l ih =>
    rw [insertionSort]
    exact (perm_orderedInsert le a (insertionSort le l)).trans (ih.cons a)

theorem pairwise_orderedInsert (le : α → α → Bool)
    (htotal : ∀ a b : α, le a b = true ∨ le b a = true)
    (htrans : ∀ x y z : α, le x y = true → le y z = true → le x z = true) (a : α) :
    ∀ l : List α, List.Pairwise (fun x y => le x y = true) l →
      List.Pairwise (fun x y => le x y = true) (orderedInsert le a l) := by
  intro l
  induction l with
  | nil => intro _; exact List.pairwise_singleton _ a
  | cons b l ih =>
    intro hp
    rcases List.pairwise_cons.mp hp with ⟨hb, hl⟩
    rw [orderedInsert]
    by_cases h : le a b
    · rw [if_pos h]
      refine List.pairwise_cons.mpr ⟨?_, hp⟩
      intro x hx
      rcases List.mem_cons.mp hx with rfl | hx2
      · exact h
      · exact htrans a b x h (hb x hx2)
    · rw [if_neg h]
      have hba : le b a = true := (htotal a b).resolve_left h
      refine List.pairwise_cons.mpr ⟨?_, ih hl⟩
      intro x hx
      rcases List.mem_cons.mp ((perm_orderedInsert le a l).mem_iff.mp hx) with rfl | hx2
      · exact hba
      · exact hb x hx2

theorem pairwise_insertionSort (le : α → α → Bool)
    (htotal : ∀ a b : α, le a b = true ∨ le b a = true)
    (htrans : ∀ x y z : α, le x y = true → le y z = true → le x z = true) :
    ∀ l : List α, List.Pairwise (fun x y => le x y = true) (insertionSort le l) := by
  intro l
  induction l with
  | nil => exact List.Pairwise.nil
  | cons a l ih =>
    rw [insertionSort]
    exact pairwise_orderedInsert le htotal htrans a _ ih

/-- Two sorted permutations of each other are equal, given antisymmetry
of the order. -/
theorem eq_of_perm_of_pairwise (le : α → α → Bool)
    (hanti : ∀ a b : α, le a b = true → le b a = true → a = b) :
    ∀ l₁ l₂ : List α, l₁.Perm l₂ →
      List.Pairwise (fun x y => le x y = true) l₁ →
      List.Pairwise (fun x y => le x y = true) l₂ → l₁ = l₂ := by
  intro l₁
  induction l₁ with
  | nil =>
    intro l₂ hperm _ _
    exact (hperm.nil_eq).symm ▸ rfl
  | cons a l₁ ih =>
    intro l₂ hperm hp₁ hp₂
    cases l₂ with
    | nil => exact absurd hperm.symm.nil_eq (by simp)
    | cons b l₂ =>
      rcases List.pairwise_cons.mp hp₁ with ⟨ha, hl₁⟩
      rcases List.pairwise_cons.mp hp₂ with ⟨hb, hl₂⟩
      have hab : a = b := by
        have hamem : a ∈ b :: l₂ := hperm.mem_iff.mp (List.mem_cons_self a l₁)
        rcases List.mem_cons.mp hamem with h1 | h1
        · exact h1
        · have hbmem : b ∈ a :: l₁ := hperm.symm.mem_iff.mp (List.mem_cons_self b l₂)
          rcases List.mem_cons.mp hbmem with h2 | h2
          · exact h2.symm
          · exact hanti a b (ha b h2) (hb a h1)
      subst hab
      rw [ih l₂ (hperm.cons_inv) hl₁ hl₂]

/-- The injected fee-calculation strategy (spec §6):
`FeeCalculator(*Transaction) (uint64, error)`. -/
def FeeCalculator : Type := Transaction → Except String Nat

/-- Whether the fee calculator succeeds on a transaction. -/
def calcOk (fc : FeeCalculator) (t : Transaction) : Bool :=
  match fc t with
  | .ok _ => true
  | .error _ => false

/-- Modelled from the spec (§6, §9 open question): the fee-derived
priority, clamped to avoid arithmetic overflow when combining the fee
with the size factor (the exact weighting formula is left open by the
spec; the contract is overflow-safe clamping with priority monotone in
fee below the clamp threshold). -/
def feePriority (fee size : Nat) : Nat := min (fee * 1024) maxUint64 / size

/-- Priority of a transaction under a fee calculator (0 is irrelevant
for calculator failures, which are filtered out before sorting). -/
def priorityOf (fc : FeeCalculator) (t : Transaction) : Nat :=
  match fc t with
  | .ok fee => feePriority fee t.Size
  | .error _ => 0

/-- The sorting order: descending fee-derived priority, ties broken by
ascending byte-lexicographic transaction hash. -/
def sortLE (fc : FeeCalculator) (a b : Transaction) : Bool :=
  if priorityOf fc b < priorityOf fc a then true
  else if priorityOf fc a < priorityOf fc b then false
  else lexLe a.Hash.bytes b.Hash.bytes

/-- Modelled from the spec (§6): `SortTransactions(txns, fc)` silently
drops the transactions on which `fc` fails and sorts the remainder by
descending clamped fee priority, ties by ascending hash. -/
def SortTransactions (txns : List Transaction) (fc : FeeCalculator) : List Transaction :=
  insertionSort (sortLE fc) (txns.filter (calcOk fc))

theorem sortLE_total (fc : FeeCalculator) (a b : Transaction) :
    sortLE fc a b = true ∨ sortLE fc b a = true := by
  rw [sortLE, sortLE]
  by_cases h1 : priorityOf fc b < priorityOf fc a
  · left; rw [if_pos h1]
  · by_cases h2 : priorityOf fc a < priorityOf fc b
    · right; rw [if_pos h2]
    · rw [if_neg h1, if_neg h2, if_neg h2, if_neg h1]
      exact lexLe_total a.Hash.bytes b.Hash.bytes

theorem sortLE_trans (fc : FeeCalculator) (a b c : Transaction) :
    sortLE fc a b = true → sortLE fc b c = true → sortLE fc a c = true := by
  intro hab hbc
  rw [sortLE] at hab hbc ⊢
  by_cases h1 : priorityOf fc b < priorityOf fc a
  · by_cases h2 : priorityOf fc c < priorityOf fc b
    · rw [if_pos (by omega)]
    · rw [if_neg h2] at hbc
      split_ifs at hbc with h3
      rw [if_pos (by omega)]
  · rw [if_neg h1] at hab
    split_ifs at hab with h2
    by_cases h3 : priorityOf fc c < priorityOf fc b
    · rw [if_pos (by omega)]
    · rw [if_neg h3] at hbc
      split_ifs at hbc with h4
      rw [if_neg (by omega), if_neg (by omega)]
      exact lexLe_trans _ _ _ hab hbc

theorem sortLE_antisymm (fc : FeeCalculator) (a b : Transaction) :
    sortLE fc a b = true → sortLE fc b a = true → a = b := by
  intro hab hba
  rw [sortLE] at hab hba
  by_cases h1 : priorityOf fc b < priorityOf fc a
  · rw [if_neg (by omega), if_pos h1] at hba
    exact absurd hba (by simp)
  · rw [if_neg h1] at hab
    split_ifs at hab with h2
    rw [if_neg (by omega), if_neg h1] at hba
    have hbytes := lexLe_antisymm _ _ hab hba
    have hser : a.Serialize = b.Serialize := hbytes
    exact serialize_injective hser

theorem sortLE_iff (fc : FeeCalculator) (a b : Transaction) :
    sortLE fc a b = true ↔
      (priorityOf fc b < priorityOf fc a ∨
        (priorityOf fc a = priorityOf fc b ∧ lexLe a.Hash.bytes b.Hash.bytes = true)) := by
  rw [sortLE]
  by_cases h1 : priorityOf fc b < priorityOf fc a
  · rw [if_pos h1]
    simp [h1]
  · rw [if_neg h1]
    by_cases h2 : priorityOf fc a < priorityOf fc b
    · rw [if_pos h2]
      constructor
      · intro hh; exact absurd hh (by simp)
      · rintro (hc | ⟨hc, _⟩) <;> omega
    · rw [if_neg h2]
      have heq : priorityOf fc a = priorityOf fc b := by omega
      simp [h1, heq]

/-- C4: `SortTransactions` returns exactly the transactions on which the
fee calculator succeeds (failed ones are silently dropped, no error),
ordered by descending clamped fee-derived priority, ties broken by
ascending byte-lexicographic transaction hash; the resulting order is
total and deterministic, independent of the input order. -/
theorem sortTransactions_filters_and_orders (txns : List Transaction) (fc : FeeCalculator) :
    (SortTransactions txns fc).Perm (txns.filter (calcOk fc)) ∧
    List.Pairwise (fun a b => priorityOf fc b < priorityOf fc a ∨
      (priorityOf fc a = priorityOf fc b ∧ lexLe a.Hash.bytes b.Hash.bytes = true))
      (SortTransactions txns fc) ∧
    (∀ txns' : List Transaction, txns.Perm txns' →
      SortTransactions txns' fc = SortTransactions txns fc) := by
  have hsorted := pairwise_insertionSort (sortLE fc) (sortLE_total fc) (sortLE_trans fc)
  refine ⟨perm_insertionSort _ _, ?_, ?_⟩
  · exact (hsorted _).imp (fun hab => (sortLE_iff fc _ _).mp hab)
  · intro txns' hperm
    apply eq_of_perm_of_pairwise (sortLE fc) (sortLE_antisymm fc)
    · exact (perm_insertionSort _ _).trans
        (((hperm.symm).filter _).trans (perm_insertionSort _ _).symm)
    · exact hsorted _
    · exact hsorted _

/-- A concrete constant-fee calculator for the C4 witness. -/
def c4fc : FeeCalculator := fun _ => .ok 100000000

/-- Witness for C4: sorting is invariant under swapping the two input
transactions. -/
theorem sortTransactions_filters_and_orders_witness :
    SortTransactions [⟨1, 0, ⟨[]⟩, [], [], []⟩, ⟨0, 0, ⟨[]⟩, [], [], []⟩] c4fc =
    SortTransactions [⟨0, 0, ⟨[]⟩, [], [], []⟩, ⟨1, 0, ⟨[]⟩, [], [], []⟩] c4fc :=
  (sortTransactions_filters_and_orders
    [⟨0, 0, ⟨[]⟩, [], [], []⟩, ⟨1, 0, ⟨[]⟩, [], [], []⟩] c4fc).2.2
    [⟨1, 0, ⟨[]⟩, [], [], []⟩, ⟨0, 0, ⟨[]⟩, [], [], []⟩]
    (List.Perm.swap _ _ _)
